import Mathlib

/-!
Shallow embedding of the anchor-locating core of `helper.py` (functions
`normalise`, `_map_norm_to_orig`, `_pick_best_occurrence`, `locate_anchor`),
together with proofs of the specified properties.  Strings are modelled as
`List Char`; Python's `IndexError` is modelled by `Option` results.
-/

namespace GutenbergSlice

/-- Whitespace test matching Python's `str.isspace` / regex `\s` on the ASCII
characters: space, tab, newline, carriage return, vertical tab, form feed. -/
def isSpace (c : Char) : Bool :=
  c = ' ' || c = '\t' || c = '\n' || c = '\r' || c = '\x0b' || c = '\x0c'

/-- The characters of a string with all whitespace removed. -/
def removeWS (l : List Char) : List Char :=
  l.filter fun c => !(isSpace c)

/-- First step of `normalise`: `re.sub(r"\r", "\n", text)`. -/
def replaceCR (l : List Char) : List Char :=
  l.map fun c => if c = '\r' then '\n' else c

/-- Emit a pending run of `k` newlines, collapsing runs of three or more
newlines to exactly two. -/
def emitNL (k : Nat) : List Char :=
  if 3 ≤ k then ['\n', '\n'] else List.replicate k '\n'

/-- Second step of `normalise`: `re.sub(r"\n{3,}", "\n\n", text)`.
The accumulator `k` counts the newlines of the run being scanned. -/
def collapseNLAux : List Char → Nat → List Char
  | [], k => emitNL k
  | c :: rest, k =>
    if c = '\n' then collapseNLAux rest (k + 1)
    else emitNL k ++ c :: collapseNLAux rest 0

def collapseNL (l : List Char) : List Char := collapseNLAux l 0

/-- Non-newline whitespace: the regex character class `[^\S\n]`. -/
def isNLWS (c : Char) : Bool := isSpace c && !(c = '\n')

/-- Third step of `normalise`: `re.sub(r"[^\S\n]+", " ", text)`.  The flag
records whether the scan is inside a run of non-newline whitespace; each
maximal run is replaced by a single space. -/
def collapseWSAux : List Char → Bool → List Char
  | [], pending => if pending then [' '] else []
  | c :: rest, pending =>
    if isNLWS c then collapseWSAux rest true
    else (if pending then [' '] else []) ++ c :: collapseWSAux rest false

def collapseWS (l : List Char) : List Char := collapseWSAux l false

/-- Remove trailing whitespace. -/
def stripRight : List Char → List Char
  | [] => []
  | c :: rest =>
    let t := stripRight rest
    if t.isEmpty then (if isSpace c then [] else [c]) else c :: t

/-- Python `str.strip()`: remove leading and trailing whitespace. -/
def strip (l : List Char) : List Char := stripRight (l.dropWhile isSpace)

/-- `normalise` from `helper.py`: carriage returns to newlines, runs of three
or more newlines to two, runs of non-newline whitespace to one space, then
strip. -/
def normalise (l : List Char) : List Char :=
  strip (collapseWS (collapseNL (replaceCR l)))

/-- The cursor-advancing loop of `_map_norm_to_orig`:
`while original[orig_idx].isspace(): orig_idx += 1`.  The first argument is
`orig.drop i`; a `none` result is Python's `IndexError` (cursor ran past the
end of `original`). -/
def skipWSGo : List Char → Nat → Option Nat
  | [], _ => none
  | c :: rest, i => if isSpace c then skipWSGo rest (i + 1) else some i

def skipWS (orig : List Char) (i : Nat) : Option Nat := skipWSGo (orig.drop i) i

/-- `_map_norm_to_orig` from `helper.py`, walking the normalised string and
advancing a cursor over the original.  The map is an association list in
increasing key order; `none` models an `IndexError` of the cursor loop. -/
def mapNormToOrigAux (orig : List Char) : List Char → Nat → Nat → Option (List (Nat × Nat))
  | [], _, _ => some []
  | ch :: rest, nIdx, oIdx =>
    if isSpace ch then mapNormToOrigAux orig rest (nIdx + 1) oIdx
    else
      match skipWS orig oIdx with
      | none => none
      | some j =>
        match mapNormToOrigAux orig rest (nIdx + 1) (j + 1) with
        | none => none
        | some m => some ((nIdx, j) :: m)

def mapNormToOrig (orig norm : List Char) : Option (List (Nat × Nat)) :=
  mapNormToOrigAux orig norm 0 0

/-- Python slice `l[a : a + n]` (clamping at the end of the list). -/
def sliceFrom (l : List Char) (a n : Nat) : List Char := (l.drop a).take n

/-- `_pick_best_occurrence` from `helper.py`: first position whose match is
immediately followed by a blank line (`"\n\n"`), else `positions[0]`.
`none` models the `IndexError` of `positions[0]` on an empty list. -/
def pickBestOccurrence (positions : List Nat) (text : List Char) (anchorLen : Nat) : Option Nat :=
  match positions.find? (fun p => sliceFrom text (p + anchorLen) 2 == ['\n', '\n']) with
  | some p => some p
  | none => positions.head?

/-- `re.finditer(re.escape(pat), txt)`: starting offsets of the
non-overlapping left-to-right occurrences of `pat` in `txt`.  After a match
the scan advances by the pattern length (by one for an empty pattern), so the
scan position `i` strictly increases and `txt.length + 1` steps of fuel always
suffice for the scan to run to completion. -/
def findAllGo (pat txt : List Char) : Nat → Nat → List Nat
  | 0, _ => []
  | fuel + 1, i =>
    if i ≤ txt.length then
      if pat.isPrefixOf (txt.drop i) then i :: findAllGo pat txt fuel (i + max pat.length 1)
      else findAllGo pat txt fuel (i + 1)
    else []

def findAll (pat txt : List Char) : List Nat := findAllGo pat txt (txt.length + 1) 0

/-- Python `str.rfind`: the largest offset at which `pat` occurs in `txt`
(possibly `txt.length` for an empty `pat`), or `none` for Python's `-1`. -/
def rfindAux (pat txt : List Char) : Nat → Option Nat
  | 0 => if pat.isPrefixOf txt then some 0 else none
  | i + 1 => if pat.isPrefixOf (txt.drop (i + 1)) then some (i + 1) else rfindAux pat txt i

def rfind (pat txt : List Char) : Option Nat := rfindAux pat txt txt.length

/-- Python `marker.split("\n")`. -/
def splitOnNL : List Char → List (List Char)
  | [] => [[]]
  | c :: rest =>
    if c = '\n' then [] :: splitOnNL rest
    else
      match splitOnNL rest with
      | [] => [[c]]
      | l :: ls => (c :: l) :: ls

/-- Strategy 1 of `locate_anchor` (full normalised match).  A `none` result
means the strategy yields nothing returnable and `locate_anchor` falls
through to Strategy 2. -/
def strategy1 (marker normMarker normText : List Char) (charMap : List (Nat × Nat))
    (isStart : Bool) : Option (Int × Nat) :=
  if isStart then
    match findAll normMarker normText with
    | [] => none
    | p :: ps =>
      match pickBestOccurrence (p :: ps) normText normMarker.length with
      | none => none
      | some best =>
        match List.lookup best charMap with
        | some o => some ((o : Int), marker.length)
        | none => none
  else
    match rfind normMarker normText with
    | none => none
    | some idx =>
      match List.lookup idx charMap with
      | some o => some ((o : Int), marker.length)
      | none => none

/-- Strategy 2 of `locate_anchor` (single-line fallback).  Always returns a
value; `some (-1, 0)` is the sentinel "marker absent". -/
def strategy2 (marker normText : List Char) (charMap : List (Nat × Nat))
    (isStart : Bool) : Option (Int × Nat) :=
  match (splitOnNL marker).filter (fun l => !(strip l).isEmpty) with
  | [] => some (-1, 0)
  | l0 :: rest =>
    let line := if isStart then l0 else (l0 :: rest).getLast (List.cons_ne_nil l0 rest)
    let lineMarker := normalise line
    match findAll lineMarker normText with
    | [] => some (-1, 0)
    | p :: ps =>
      match (if isStart then pickBestOccurrence (p :: ps) normText lineMarker.length
             else (p :: ps).getLast?) with
      | none => none
      | some best =>
        match List.lookup best charMap with
        | none => some (-1, 0)
        | some o => some ((o : Int), lineMarker.length)

/-- `locate_anchor` from `helper.py`.  Returns `none` only when Python would
raise (an out-of-range cursor while building the position map, possible only
when `text` and `normalise text` disagree on non-whitespace content, which
never happens); `some (-1, 0)` is the "not found" sentinel. -/
def locateAnchor (text marker : List Char) (isStart : Bool) : Option (Int × Nat) :=
  let normText := normalise text
  let normMarker := normalise marker
  match mapNormToOrig text normText with
  | none => none
  | some charMap =>
    match strategy1 marker normMarker normText charMap isStart with
    | some r => some r
    | none => strategy2 marker normText charMap isStart

/-- Scanning check that a string contains no run of three or more consecutive
newlines; `k` is the length of the newline run ending at the scan position. -/
def nlRunOk : List Char → Nat → Bool
  | [], _ => true
  | c :: rest, k =>
    if c = '\n' then decide (k + 1 < 3) && nlRunOk rest (k + 1)
    else nlRunOk rest 0

/-- No run of three or more consecutive newlines. -/
def noTripleNL (l : List Char) : Bool := nlRunOk l 0

/-- Scanning check that a string contains no two adjacent non-newline
whitespace characters; the flag records whether the previous character was
non-newline whitespace. -/
def wsRunOk : List Char → Bool → Bool
  | [], _ => true
  | c :: rest, prev =>
    if isNLWS c then !prev && wsRunOk rest true
    else wsRunOk rest false

/-- No run of non-newline whitespace longer than one character. -/
def noDoubleNLWS (l : List Char) : Bool := wsRunOk l false

/-! ## Generic helper lemmas -/

theorem isPrefixOf_eq_iff (pat l : List Char) :
    pat.isPrefixOf l = true ↔ ∃ t, l = pat ++ t := by
  rw [List.isPrefixOf_iff_prefix]
  constructor
  · rintro ⟨t, ht⟩
    exact ⟨t, ht.symm⟩
  · rintro ⟨t, rfl⟩
    exact ⟨t, rfl⟩

theorem lookup_mem {m : List (Nat × Nat)} {k v : Nat} (h : List.lookup k m = some v) :
    (k, v) ∈ m := by
  rw [List.lookup_eq_some_iff] at h
  obtain ⟨l₁, l₂, rfl, -⟩ := h
  simp

/-! ## Claim C1: the occurrence selector -/

/-- C1: for every non-empty list of positions, every normalised text and every
anchor length, `_pick_best_occurrence` returns (without failing) the first
position `p` in the list whose following two characters
`text[p+anchor_len : p+anchor_len+2]` are two newlines, and otherwise the
first position of the list. -/
theorem pickBestOccurrence_first_blankline (positions : List Nat) (text : List Char)
    (aLen : Nat) (hne : positions ≠ []) :
    ∃ p, pickBestOccurrence positions text aLen = some p ∧
      ((∃ pre post, positions = pre ++ p :: post ∧
          sliceFrom text (p + aLen) 2 = ['\n', '\n'] ∧
          ∀ q ∈ pre, sliceFrom text (q + aLen) 2 ≠ ['\n', '\n']) ∨
        ((∀ q ∈ positions, sliceFrom text (q + aLen) 2 ≠ ['\n', '\n']) ∧
          positions.head? = some p)) := by
  unfold pickBestOccurrence
  rcases hf : positions.find? (fun p => sliceFrom text (p + aLen) 2 == ['\n', '\n']) with - | p
  · rw [List.find?_eq_none] at hf
    cases positions with
    | nil => exact absurd rfl hne
    | cons a t =>
      refine ⟨a, rfl, Or.inr ⟨fun q hq => ?_, rfl⟩⟩
      have := hf q hq
      simpa using this
  · rw [List.find?_eq_some] at hf
    obtain ⟨hp, pre, post, rfl, hpre⟩ := hf
    refine ⟨p, rfl, Or.inl ⟨pre, post, rfl, by simpa using hp, fun q hq => ?_⟩⟩
    have := hpre q hq
    simpa using this

/-- C1 witness: the selector applied to the singleton position list `[5]` in
the text `"abc"` (no position is followed by a blank line, so the first
position is returned). -/
theorem pickBestOccurrence_first_blankline_apply :
    ∃ p, pickBestOccurrence [5] ("abc".toList) 0 = some p ∧
      ((∃ pre post, ([5] : List Nat) = pre ++ p :: post ∧
          sliceFrom ("abc".toList) (p + 0) 2 = ['\n', '\n'] ∧
          ∀ q ∈ pre, sliceFrom ("abc".toList) (q + 0) 2 ≠ ['\n', '\n']) ∨
        ((∀ q ∈ ([5] : List Nat), sliceFrom ("abc".toList) (q + 0) 2 ≠ ['\n', '\n']) ∧
          ([5] : List Nat).head? = some p)) :=
  pickBestOccurrence_first_blankline [5] ("abc".toList) 0 (by decide)

/-! ## Position-map lemmas -/

theorem removeWS_nil : removeWS [] = [] := rfl

theorem removeWS_cons (c : Char) (l : List Char) :
    removeWS (c :: l) = if isSpace c then removeWS l else c :: removeWS l := by
  simp only [removeWS, List.filter_cons]
  cases h : isSpace c <;> simp

theorem skipWSGo_some {orig : List Char} :
    ∀ (s : List Char) (i j : Nat), orig.drop i = s → skipWSGo s i = some j →
      i ≤ j ∧ ∃ h : j < orig.length, isSpace (orig.get ⟨j, h⟩) = false := by
  intro s
  induction s with
  | nil =>
    intro i j _ h
    simp [skipWSGo] at h
  | cons c rest ih =>
    intro i j hdrop h
    by_cases hc : isSpace c
    · rw [skipWSGo, if_pos hc] at h
      have hdrop' : orig.drop (i + 1) = rest := by
        rw [← List.tail_drop, hdrop]
        rfl
      obtain ⟨h1, h2⟩ := ih (i + 1) j hdrop' h
      exact ⟨by omega, h2⟩
    · rw [skipWSGo, if_neg hc] at h
      obtain rfl : i = j := by
        injection h with h
      have hlen : i < orig.length := by
        by_contra hge
        rw [List.drop_eq_nil_of_le (by omega)] at hdrop
        exact List.noConfusion hdrop
      refine ⟨Nat.le_refl i, hlen, ?_⟩
      have : orig.drop i = orig.get ⟨i, hlen⟩ :: orig.drop (i + 1) :=
        List.drop_eq_get_cons hlen
      rw [hdrop] at this
      have hc' : orig.get ⟨i, hlen⟩ = c := (List.cons.injEq _ _ _ _ ▸ this).1.symm
      rw [hc']
      exact Bool.not_eq_true _ ▸ (by simpa using hc)

theorem skipWS_some {orig : List Char} {i j : Nat} (h : skipWS orig i = some j) :
    i ≤ j ∧ ∃ hlt : j < orig.length, isSpace (orig.get ⟨j, hlt⟩) = false :=
  skipWSGo_some (orig.drop i) i j rfl h

theorem skipWS_spec {orig : List Char} :
    ∀ (s : List Char) (i : Nat), orig.drop i = s → removeWS s ≠ [] →
      ∃ j, skipWS orig i = some j ∧ i ≤ j ∧ ∃ hlt : j < orig.length,
        isSpace (orig.get ⟨j, hlt⟩) = false ∧
        removeWS (orig.drop i) = orig.get ⟨j, hlt⟩ :: removeWS (orig.drop (j + 1)) := by
  intro s
  induction s with
  | nil =>
    intro i _ hne
    exact absurd removeWS_nil hne
  | cons c rest ih =>
    intro i hdrop hne
    have hdrop' : orig.drop (i + 1) = rest := by
      rw [← List.tail_drop, hdrop]
      rfl
    have hlen : i < orig.length := by
      by_contra hge
      rw [List.drop_eq_nil_of_le (by omega)] at hdrop
      exact List.noConfusion hdrop
    have hget : orig.get ⟨i, hlen⟩ = c := by
      have : orig.drop i = orig.get ⟨i, hlen⟩ :: orig.drop (i + 1) :=
        List.drop_eq_get_cons hlen
      rw [hdrop] at this
      exact (List.cons.injEq _ _ _ _ ▸ this).1.symm
    by_cases hc : isSpace c
    · have hne' : removeWS rest ≠ [] := by
        rw [removeWS_cons, if_pos hc] at hne
        exact hne
      obtain ⟨j, hj, hij, hlt, hws, heq⟩ := ih (i + 1) hdrop' hne'
      refine ⟨j, ?_, by omega, hlt, hws, ?_⟩
      · rw [skipWS, hdrop, skipWSGo, if_pos hc, ← hdrop']
        exact hj
      · rw [hdrop, removeWS_cons, if_pos hc, ← hdrop']
        exact heq
    · refine ⟨i, ?_, Nat.le_refl i, hlen, by rw [hget]; simpa using hc, ?_⟩
      · rw [skipWS, hdrop, skipWSGo, if_neg hc]
      · rw [hdrop, removeWS_cons, if_neg hc, hget, hdrop']

theorem mapAux_spec (orig : List Char) :
    ∀ (ns : List Char) (nIdx oIdx : Nat),
      (∃ t, removeWS (orig.drop oIdx) = removeWS ns ++ t) →
      ∃ m, mapNormToOrigAux orig ns nIdx oIdx = some m ∧
        (∀ q ∈ m, nIdx ≤ q.1 ∧ oIdx ≤ q.2) ∧
        List.Pairwise (fun a b : Nat × Nat => a.1 < b.1 ∧ a.2 < b.2) m ∧
        (∀ (t : Nat) (ht : t < ns.length), isSpace (ns.get ⟨t, ht⟩) = false →
          ∃ v, List.lookup (nIdx + t) m = some v) ∧
        (∀ q ∈ m, ∃ t, q.1 = nIdx + t ∧ ∃ ht : t < ns.length,
          isSpace (ns.get ⟨t, ht⟩) = false ∧ ∃ hv : q.2 < orig.length,
          isSpace (orig.get ⟨q.2, hv⟩) = false ∧
          orig.get ⟨q.2, hv⟩ = ns.get ⟨t, ht⟩) := by
  intro ns
  induction ns with
  | nil =>
    intro nIdx oIdx _
    refine ⟨[], rfl, by simp, by simp, ?_, by simp⟩
    intro t ht
    exact absurd ht (by simp)
  | cons ch rest ih =>
    intro nIdx oIdx hpre
    by_cases hch : isSpace ch
    · have hpre' : ∃ t, removeWS (orig.drop oIdx) = removeWS rest ++ t := by
        obtain ⟨t, ht⟩ := hpre
        rw [removeWS_cons, if_pos hch] at ht
        exact ⟨t, ht⟩
      obtain ⟨m, hm, h1, h2, h3, h4⟩ := ih (nIdx + 1) oIdx hpre'
      refine ⟨m, ?_, ?_, h2, ?_, ?_⟩
      · rw [mapNormToOrigAux, if_pos hch]
        exact hm
      · intro q hq
        obtain ⟨hq1, hq2⟩ := h1 q hq
        exact ⟨by omega, hq2⟩
      · intro t ht hws
        cases t with
        | zero =>
          rw [show (ch :: rest).get ⟨0, ht⟩ = ch from rfl] at hws
          rw [hch] at hws
          exact absurd hws (by simp)
        | succ t' =>
          have ht' : t' < rest.length := by simpa using ht
          rw [List.get_cons_succ] at hws
          obtain ⟨v, hv⟩ := h3 t' ht' hws
          exact ⟨v, by rw [show nIdx + (t' + 1) = nIdx + 1 + t' by omega]; exact hv⟩
      · intro q hq
        obtain ⟨t, hqt, ht, hws, hvv⟩ := h4 q hq
        refine ⟨t + 1, by omega, by simpa using ht, ?_, ?_⟩
        · rw [List.get_cons_succ]
          exact hws
        · rw [List.get_cons_succ]
          exact hvv
    · obtain ⟨t0, ht0⟩ := hpre
      rw [removeWS_cons, if_neg hch] at ht0
      have hne : removeWS (orig.drop oIdx) ≠ [] := by
        rw [ht0]
        exact List.cons_ne_nil _ _
      obtain ⟨j, hj, hij, hlt, hws, heq⟩ := skipWS_spec (orig.drop oIdx) oIdx rfl hne
      have hhead : orig.get ⟨j, hlt⟩ = ch ∧
          removeWS (orig.drop (j + 1)) = removeWS rest ++ t0 := by
        rw [heq] at ht0
        exact ⟨(List.cons.injEq _ _ _ _ ▸ ht0).1, (List.cons.injEq _ _ _ _ ▸ ht0).2⟩
      obtain ⟨m', hm', h1, h2, h3, h4⟩ := ih (nIdx + 1) (j + 1) ⟨t0, hhead.2⟩
      refine ⟨(nIdx, j) :: m', ?_, ?_, ?_, ?_, ?_⟩
      · rw [mapNormToOrigAux, if_neg hch, hj]
        dsimp only
        rw [hm']
      · intro q hq
        rcases List.mem_cons.mp hq with rfl | hq'
        · exact ⟨Nat.le_refl _, hij⟩
        · obtain ⟨hq1, hq2⟩ := h1 q hq'
          exact ⟨by omega, by omega⟩
      · refine List.Pairwise.cons ?_ h2
        intro q hq
        obtain ⟨hq1, hq2⟩ := h1 q hq
        exact ⟨by omega, by omega⟩
      · intro t ht hws'
        cases t with
        | zero =>
          exact ⟨j, by simp⟩
        | succ t' =>
          have ht' : t' < rest.length := by simpa using ht
          rw [List.get_cons_succ] at hws'
          obtain ⟨v, hv⟩ := h3 t' ht' hws'
          refine ⟨v, ?_⟩
          rw [List.lookup_cons]
          have hneq : (nIdx + (t' + 1) == nIdx) = false := by
            simp only [beq_eq_false_iff_ne, ne_eq]
            omega
          rw [hneq]
          rw [show nIdx + (t' + 1) = nIdx + 1 + t' by omega]
          exact hv
      · intro q hq
        rcases List.mem_cons.mp hq with rfl | hq'
        · refine ⟨0, by omega, by simp, ?_, hlt, hws, ?_⟩
          · rw [show (ch :: rest).get ⟨0, by simp⟩ = ch from rfl]
            simpa using hch
          · rw [show (ch :: rest).get ⟨0, by simp⟩ = ch from rfl]
            exact hhead.1
        · obtain ⟨t, hqt, ht, hws2, hvv⟩ := h4 q hq'
          refine ⟨t + 1, by omega, by simpa using ht, ?_, ?_⟩
          · rw [List.get_cons_succ]
            exact hws2
          · rw [List.get_cons_succ]
            exact hvv

/-! ## normalise preserves the non-whitespace content -/

theorem isSpace_of_isNLWS {c : Char} (h : isNLWS c = true) : isSpace c = true := by
  unfold isNLWS at h
  exact (Bool.and_eq_true _ _ ▸ h).1

theorem replaceCR_cons (c : Char) (t : List Char) :
    replaceCR (c :: t) = (if c = '\r' then '\n' else c) :: replaceCR t := rfl

theorem removeWS_replaceCR (l : List Char) : removeWS (replaceCR l) = removeWS l := by
  induction l with
  | nil => rfl
  | cons c t ih =>
    rw [replaceCR_cons, removeWS_cons, removeWS_cons]
    by_cases h : c = '\r'
    · subst h
      simp only [if_pos rfl, if_pos (by decide : isSpace '\n' = true),
        if_pos (by decide : isSpace '\r' = true)]
      exact ih
    · rw [if_neg h, ih]

theorem removeWS_replicate_nl (k : Nat) : removeWS (List.replicate k '\n') = [] := by
  induction k with
  | zero => rfl
  | succ n ih => rw [List.replicate_succ, removeWS_cons, if_pos (by decide)]; exact ih

theorem removeWS_emitNL (k : Nat) : removeWS (emitNL k) = [] := by
  unfold emitNL
  split
  · rfl
  · exact removeWS_replicate_nl k

theorem removeWS_append (a b : List Char) :
    removeWS (a ++ b) = removeWS a ++ removeWS b := by
  simp [removeWS, List.filter_append]

theorem removeWS_collapseNLAux (l : List Char) :
    ∀ k, removeWS (collapseNLAux l k) = removeWS l := by
  induction l with
  | nil => intro k; rw [collapseNLAux, removeWS_emitNL]; rfl
  | cons c t ih =>
    intro k
    by_cases h : c = '\n'
    · rw [collapseNLAux, if_pos h, ih, h, removeWS_cons, if_pos (by decide)]
    · rw [collapseNLAux, if_neg h, removeWS_append, removeWS_emitNL, removeWS_cons,
        removeWS_cons, ih]
      rfl

theorem removeWS_pending (p : Bool) :
    removeWS (if p then [' '] else []) = [] := by
  cases p <;> decide

theorem removeWS_collapseWSAux (l : List Char) :
    ∀ p, removeWS (collapseWSAux l p) = removeWS l := by
  induction l with
  | nil =>
    intro p
    rw [collapseWSAux, removeWS_pending]
    rfl
  | cons c t ih =>
    intro p
    by_cases h : isNLWS c = true
    · rw [collapseWSAux, if_pos h, ih, removeWS_cons, if_pos (isSpace_of_isNLWS h)]
    · rw [collapseWSAux, if_neg h, removeWS_append, removeWS_pending, removeWS_cons,
        removeWS_cons, ih, List.nil_append]

theorem removeWS_dropWhile (l : List Char) :
    removeWS (l.dropWhile isSpace) = removeWS l := by
  induction l with
  | nil => rfl
  | cons c t ih =>
    by_cases h : isSpace c = true
    · rw [List.dropWhile_cons_of_pos h, ih, removeWS_cons, if_pos h]
    · rw [List.dropWhile_cons_of_neg h]

theorem removeWS_stripRight (l : List Char) : removeWS (stripRight l) = removeWS l := by
  induction l with
  | nil => rfl
  | cons c t ih =>
    rw [stripRight]
    by_cases h : (stripRight t).isEmpty = true
    · have ht : stripRight t = [] := by
        cases hst : stripRight t
        · rfl
        · rw [hst] at h
          exact absurd h (by simp)
      have htr : removeWS t = [] := by rw [← ih, ht]; rfl
      rw [if_pos h]
      by_cases hc : isSpace c = true
      · rw [if_pos hc, removeWS_cons, if_pos hc, htr]
        rfl
      · rw [if_neg hc, removeWS_cons, if_neg hc, removeWS_cons, if_neg hc, htr]
        rfl
    · rw [if_neg h, removeWS_cons, removeWS_cons, ih]

theorem removeWS_strip (l : List Char) : removeWS (strip l) = removeWS l := by
  rw [strip, removeWS_stripRight, removeWS_dropWhile]

theorem removeWS_normalise (l : List Char) : removeWS (normalise l) = removeWS l := by
  rw [normalise, removeWS_strip, collapseWS, removeWS_collapseWSAux, collapseNL,
    removeWS_collapseNLAux, removeWS_replaceCR]

theorem pairwise_mono_of_mem {m : List (Nat × Nat)}
    (hp : List.Pairwise (fun a b : Nat × Nat => a.1 < b.1 ∧ a.2 < b.2) m)
    {a b : Nat × Nat} (ha : a ∈ m) (hb : b ∈ m) (hab : a.1 < b.1) : a.2 < b.2 := by
  induction m with
  | nil => exact absurd ha (List.not_mem_nil a)
  | cons x t ih =>
    obtain ⟨hx, ht⟩ := List.pairwise_cons.mp hp
    rcases List.mem_cons.mp ha with rfl | ha' <;> rcases List.mem_cons.mp hb with rfl | hb'
    · omega
    · exact (hx b hb').2
    · have := (hx a ha').1
      omega
    · exact ih ht ha' hb'

/-! ## Claim C5: the position mapper never faults under the precondition -/

/-- C5: whenever `original` and `normalised` agree after removing all
whitespace, `_map_norm_to_orig` completes without an out-of-range access
(modelled by returning `some`); in particular building the map for a text and
its own normalisation never faults. -/
theorem mapNormToOrig_no_fault :
    (∀ orig norm : List Char, removeWS orig = removeWS norm →
      (mapNormToOrig orig norm).isSome = true) ∧
    (∀ text : List Char, (mapNormToOrig text (normalise text)).isSome = true) := by
  have main : ∀ orig norm : List Char, removeWS orig = removeWS norm →
      (mapNormToOrig orig norm).isSome = true := by
    intro orig norm h
    obtain ⟨m, hm, -⟩ := mapAux_spec orig norm 0 0
      ⟨[], by rw [List.drop_zero, h, List.append_nil]⟩
    rw [mapNormToOrig, hm]
    rfl
  exact ⟨main, fun text => main text (normalise text) (removeWS_normalise text).symm⟩

/-- C5 witness: the map for the pair `(" a b ", "a b")`, which agrees on
non-whitespace content, is built without fault. -/
theorem mapNormToOrig_no_fault_apply :
    (mapNormToOrig (" a b ".toList) ("a b".toList)).isSome = true :=
  mapNormToOrig_no_fault.1 (" a b ".toList) ("a b".toList) (by decide)

/-! ## Claim C4: the position-map invariants -/

/-- C4: under the whitespace-parity precondition the map built by
`_map_norm_to_orig` is defined exactly at the non-whitespace indices of the
normalised string, its values increase strictly with the key, and each value
indexes a non-whitespace character of the original equal to the normalised
character at the key. -/
theorem mapNormToOrig_invariants (orig norm : List Char)
    (h : removeWS orig = removeWS norm) :
    ∃ m, mapNormToOrig orig norm = some m ∧
      (∀ k : Nat, (∃ v, List.lookup k m = some v) ↔
        ∃ hk : k < norm.length, isSpace (norm.get ⟨k, hk⟩) = false) ∧
      (∀ a b, a ∈ m → b ∈ m → a.1 < b.1 → a.2 < b.2) ∧
      (∀ k v, List.lookup k m = some v → ∃ hv : v < orig.length,
        isSpace (orig.get ⟨v, hv⟩) = false ∧
        ∃ hk : k < norm.length, orig.get ⟨v, hv⟩ = norm.get ⟨k, hk⟩) := by
  obtain ⟨m, hm, h1, h2, h3, h4⟩ := mapAux_spec orig norm 0 0
    ⟨[], by rw [List.drop_zero, h, List.append_nil]⟩
  refine ⟨m, by rw [mapNormToOrig, hm], ?_, ?_, ?_⟩
  · intro k
    constructor
    · rintro ⟨v, hv⟩
      obtain ⟨t, hkt, ht, hws, -⟩ := h4 (k, v) (lookup_mem hv)
      obtain rfl : k = t := by simpa using hkt
      exact ⟨ht, hws⟩
    · rintro ⟨hk, hws⟩
      obtain ⟨v, hv⟩ := h3 k hk hws
      exact ⟨v, by simpa using hv⟩
  · exact fun a b ha hb => pairwise_mono_of_mem h2 ha hb
  · intro k v hv
    obtain ⟨t, hkt, ht, hws, hlt, hows, hoeq⟩ := h4 (k, v) (lookup_mem hv)
    obtain rfl : k = t := by simpa using hkt
    exact ⟨hlt, hows, ht, hoeq⟩

/-- C4 witness: the invariants instantiated for the pair `(" a b ", "a b")`. -/
theorem mapNormToOrig_invariants_apply :
    ∃ m, mapNormToOrig (" a b ".toList) ("a b".toList) = some m ∧
      (∀ k : Nat, (∃ v, List.lookup k m = some v) ↔
        ∃ hk : k < ("a b".toList).length, isSpace (("a b".toList).get ⟨k, hk⟩) = false) ∧
      (∀ a b, a ∈ m → b ∈ m → a.1 < b.1 → a.2 < b.2) ∧
      (∀ k v, List.lookup k m = some v → ∃ hv : v < (" a b ".toList).length,
        isSpace ((" a b ".toList).get ⟨v, hv⟩) = false ∧
        ∃ hk : k < ("a b".toList).length,
        (" a b ".toList).get ⟨v, hv⟩ = ("a b".toList).get ⟨k, hk⟩) :=
  mapNormToOrig_invariants (" a b ".toList) ("a b".toList) (by decide)

/-! ## Unconditional bounds on the position-map values -/

theorem mapAux_values (orig : List Char) :
    ∀ (ns : List Char) (nIdx oIdx : Nat) (m : List (Nat × Nat)),
      mapNormToOrigAux orig ns nIdx oIdx = some m →
      ∀ q ∈ m, ∃ hv : q.2 < orig.length, isSpace (orig.get ⟨q.2, hv⟩) = false := by
  intro ns
  induction ns with
  | nil =>
    intro nIdx oIdx m hm q hq
    obtain rfl : ([] : List (Nat × Nat)) = m := by
      injection hm
    exact absurd hq (List.not_mem_nil q)
  | cons ch rest ih =>
    intro nIdx oIdx m hm q hq
    by_cases hch : isSpace ch
    · rw [mapNormToOrigAux, if_pos hch] at hm
      exact ih (nIdx + 1) oIdx m hm q hq
    · rw [mapNormToOrigAux, if_neg hch] at hm
      cases hskip : skipWS orig oIdx with
      | none =>
        rw [hskip] at hm
        exact Option.noConfusion hm
      | some j =>
        rw [hskip] at hm
        dsimp only at hm
        cases hrec : mapNormToOrigAux orig rest (nIdx + 1) (j + 1) with
        | none =>
          rw [hrec] at hm
          exact Option.noConfusion hm
        | some m' =>
          rw [hrec] at hm
          obtain rfl : (nIdx, j) :: m' = m := by
            injection hm
          rcases List.mem_cons.mp hq with rfl | hq'
          · exact (skipWS_some hskip).2
          · exact ih (nIdx + 1) (j + 1) m' hrec q hq'

theorem mapNormToOrig_values {orig norm : List Char} {m : List (Nat × Nat)}
    (hm : mapNormToOrig orig norm = some m) {k v : Nat}
    (hv : List.lookup k m = some v) :
    ∃ hlt : v < orig.length, isSpace (orig.get ⟨v, hlt⟩) = false :=
  mapAux_values orig norm 0 0 m hm (k, v) (lookup_mem hv)

/-! ## Result shapes of the two strategies -/

theorem strategy1_result {marker normMarker normText : List Char}
    {cm : List (Nat × Nat)} {isStart : Bool} {r : Int × Nat}
    (h : strategy1 marker normMarker normText cm isStart = some r) :
    ∃ k v, List.lookup k cm = some v ∧ r = ((v : Int), marker.length) := by
  unfold strategy1 at h
  by_cases hs : isStart
  · rw [if_pos hs] at h
    cases hfa : findAll normMarker normText with
    | nil =>
      rw [hfa] at h
      exact Option.noConfusion h
    | cons p ps =>
      rw [hfa] at h
      dsimp only at h
      cases hpb : pickBestOccurrence (p :: ps) normText normMarker.length with
      | none =>
        rw [hpb] at h
        exact Option.noConfusion h
      | some best =>
        rw [hpb] at h
        dsimp only at h
        cases hlk : List.lookup best cm with
        | none =>
          rw [hlk] at h
          exact Option.noConfusion h
        | some o =>
          rw [hlk] at h
          dsimp only at h
          injection h with h
          exact ⟨best, o, hlk, h.symm⟩
  · rw [if_neg hs] at h
    cases hrf : rfind normMarker normText with
    | none =>
      rw [hrf] at h
      exact Option.noConfusion h
    | some idx =>
      rw [hrf] at h
      dsimp only at h
      cases hlk : List.lookup idx cm with
      | none =>
        rw [hlk] at h
        exact Option.noConfusion h
      | some o =>
        rw [hlk] at h
        dsimp only at h
        injection h with h
        exact ⟨idx, o, hlk, h.symm⟩

theorem strategy2_result {marker normText : List Char}
    {cm : List (Nat × Nat)} {isStart : Bool} {r : Int × Nat}
    (h : strategy2 marker normText cm isStart = some r) :
    r = (-1, 0) ∨ ∃ k v lm, List.lookup k cm = some v ∧ r = ((v : Int), lm) := by
  unfold strategy2 at h
  cases hlines : (splitOnNL marker).filter (fun l => !(strip l).isEmpty) with
  | nil =>
    rw [hlines] at h
    injection h with h
    exact Or.inl h.symm
  | cons l0 rest =>
    rw [hlines] at h
    dsimp only at h
    cases hfa : findAll
        (normalise (if isStart then l0 else (l0 :: rest).getLast (List.cons_ne_nil l0 rest)))
        normText with
    | nil =>
      rw [hfa] at h
      injection h with h
      exact Or.inl h.symm
    | cons p ps =>
      rw [hfa] at h
      dsimp only at h
      cases hpb : (if isStart then
          pickBestOccurrence (p :: ps) normText
            (normalise (if isStart then l0 else
              (l0 :: rest).getLast (List.cons_ne_nil l0 rest))).length
        else (p :: ps).getLast?) with
      | none =>
        rw [hpb] at h
        exact Option.noConfusion h
      | some best =>
        rw [hpb] at h
        dsimp only at h
        cases hlk : List.lookup best cm with
        | none =>
          rw [hlk] at h
          injection h with h
          exact Or.inl h.symm
        | some o =>
          rw [hlk] at h
          dsimp only at h
          injection h with h
          exact Or.inr ⟨best, o, _, hlk, h.symm⟩

/-! ## Claim C10: valid offsets point at non-whitespace original characters -/

/-- C10: whenever `locate_anchor` returns an offset other than `-1`, that
offset is an in-bounds index of the original text at which the character is
not whitespace. -/
theorem locateAnchor_offset_in_bounds (text marker : List Char) (b : Bool) (o : Int)
    (l : Nat) (h : locateAnchor text marker b = some (o, l)) (ho : o ≠ -1) :
    ∃ n : Nat, o = (n : Int) ∧ ∃ hn : n < text.length,
      isSpace (text.get ⟨n, hn⟩) = false := by
  unfold locateAnchor at h
  dsimp only at h
  cases hcm : mapNormToOrig text (normalise text) with
  | none =>
    rw [hcm] at h
    exact Option.noConfusion h
  | some cm =>
    rw [hcm] at h
    dsimp only at h
    cases hs1 : strategy1 marker (normalise marker) (normalise text) cm b with
    | some r =>
      rw [hs1] at h
      dsimp only at h
      injection h with h
      obtain ⟨k, v, hlk, hr⟩ := strategy1_result hs1
      rw [h] at hr
      obtain ⟨hov, -⟩ := Prod.mk.injEq .. ▸ hr
      obtain ⟨hlt, hws⟩ := mapNormToOrig_values hcm hlk
      exact ⟨v, hov, hlt, hws⟩
    | none =>
      rw [hs1] at h
      dsimp only at h
      rcases strategy2_result h with hr | ⟨k, v, lm, hlk, hr⟩
      · obtain ⟨ho1, -⟩ := Prod.mk.injEq .. ▸ hr
        exact absurd ho1 ho
      · obtain ⟨hov, -⟩ := Prod.mk.injEq .. ▸ hr
        obtain ⟨hlt, hws⟩ := mapNormToOrig_values hcm hlk
        exact ⟨v, hov, hlt, hws⟩

/-- C10 witness: `locate_anchor("ab", "ab", true)` returns offset `0`, which
is in bounds and non-whitespace. -/
theorem locateAnchor_offset_in_bounds_apply :
    ∃ n : Nat, (0 : Int) = (n : Int) ∧ ∃ hn : n < ("ab".toList).length,
      isSpace (("ab".toList).get ⟨n, hn⟩) = false :=
  locateAnchor_offset_in_bounds ("ab".toList) ("ab".toList) true 0 2 (by decide)
    (by decide)

/-! ## Occurrence-search lemmas -/

theorem findAllGo_sound (pat txt : List Char) :
    ∀ (fuel i p : Nat), p ∈ findAllGo pat txt fuel i →
      i ≤ p ∧ ∃ t, txt.drop p = pat ++ t := by
  intro fuel
  induction fuel with
  | zero =>
    intro i p hp
    exact absurd hp (List.not_mem_nil p)
  | succ f ih =>
    intro i p hp
    rw [findAllGo] at hp
    by_cases hi : i ≤ txt.length
    · rw [if_pos hi] at hp
      by_cases hpre : pat.isPrefixOf (txt.drop i) = true
      · rw [if_pos hpre] at hp
        rcases List.mem_cons.mp hp with rfl | hp'
        · exact ⟨Nat.le_refl p, (isPrefixOf_eq_iff pat (txt.drop p)).mp hpre⟩
        · obtain ⟨h1, h2⟩ := ih _ p hp'
          exact ⟨by omega, h2⟩
      · rw [if_neg hpre] at hp
        obtain ⟨h1, h2⟩ := ih _ p hp
        exact ⟨by omega, h2⟩
    · rw [if_neg hi] at hp
      exact absurd hp (List.not_mem_nil p)

theorem findAll_sound {pat txt : List Char} {p : Nat} (hp : p ∈ findAll pat txt) :
    ∃ t, txt.drop p = pat ++ t :=
  (findAllGo_sound pat txt (txt.length + 1) 0 p hp).2

theorem findAllGo_complete (pat txt : List Char) :
    ∀ (fuel i : Nat), txt.length + 1 ≤ fuel + i → findAllGo pat txt fuel i = [] →
      ∀ j, i ≤ j → j ≤ txt.length → ¬ ∃ t, txt.drop j = pat ++ t := by
  intro fuel
  induction fuel with
  | zero =>
    intro i hfi _ j hij hjlen
    omega
  | succ f ih =>
    intro i hfi he j hij hjlen
    rw [findAllGo] at he
    by_cases hi : i ≤ txt.length
    · rw [if_pos hi] at he
      by_cases hpre : pat.isPrefixOf (txt.drop i) = true
      · rw [if_pos hpre] at he
        exact List.noConfusion he
      · rw [if_neg hpre] at he
        rcases Nat.eq_or_lt_of_le hij with rfl | hlt
        · intro ht
          exact hpre ((isPrefixOf_eq_iff pat (txt.drop i)).mpr ht)
        · exact ih (i + 1) (by omega) he j (by omega) hjlen
    · omega

theorem findAll_ne_nil_of_occurs {pat txt : List Char} {j : Nat} (hj : j ≤ txt.length)
    (ht : ∃ t, txt.drop j = pat ++ t) : findAll pat txt ≠ [] := by
  intro he
  exact findAllGo_complete pat txt (txt.length + 1) 0 (by omega) he j (Nat.zero_le j) hj ht

theorem pickBest_isSome (positions : List Nat) (text : List Char) (aLen : Nat)
    (hne : positions ≠ []) : ∃ p, pickBestOccurrence positions text aLen = some p := by
  unfold pickBestOccurrence
  cases hf : positions.find? (fun p => sliceFrom text (p + aLen) 2 == ['\n', '\n']) with
  | some q => exact ⟨q, rfl⟩
  | none =>
    cases positions with
    | nil => exact absurd rfl hne
    | cons a t => exact ⟨a, rfl⟩

theorem pickBest_mem {positions : List Nat} {text : List Char} {aLen p : Nat}
    (h : pickBestOccurrence positions text aLen = some p) : p ∈ positions := by
  unfold pickBestOccurrence at h
  cases hf : positions.find? (fun q => sliceFrom text (q + aLen) 2 == ['\n', '\n']) with
  | some q =>
    rw [hf] at h
    injection h with h
    exact h ▸ List.mem_of_find?_eq_some hf
  | none =>
    rw [hf] at h
    obtain ⟨ys, rfl⟩ := List.head?_eq_some_iff.mp h
    exact List.mem_cons_self p ys

/-! ## The normalised text starts with a non-whitespace character -/

theorem stripRight_head? : ∀ (l : List Char) (c : Char),
    (stripRight l).head? = some c → l.head? = some c := by
  intro l c h
  cases l with
  | nil => exact Option.noConfusion h
  | cons d rest =>
    rw [stripRight] at h
    by_cases he : (stripRight rest).isEmpty = true
    · rw [if_pos he] at h
      by_cases hd : isSpace d = true
      · rw [if_pos hd] at h
        exact Option.noConfusion h
      · rw [if_neg hd] at h
        exact h
    · rw [if_neg he] at h
      exact h

theorem strip_head_not_space {l : List Char} {c : Char}
    (h : (strip l).head? = some c) : isSpace c = false := by
  have h' := stripRight_head? _ _ h
  have := List.head?_dropWhile_not isSpace l
  rw [h'] at this
  exact this

theorem normalise_head_not_space {l : List Char} {c : Char}
    (h : (normalise l).head? = some c) : isSpace c = false :=
  strip_head_not_space h

/-! ## Claim C2: offsets of whitespace-variant markers -/

/-- C2 counterexample: for the text `"a  b"` (two spaces) and the marker
`"a b"` — an exact whitespace-variant of the substring `text[0:4]`, in a text
that is not whitespace-only — `locate_anchor` returns offset `0` with length
`len(marker) = 3`, and `normalise(text[0:3]) = "a"` differs from
`normalise(marker) = "a b"`, so the claimed round-trip equality fails. -/
theorem locateAnchor_roundtrip_fails :
    locateAnchor ("a  b".toList) ("a b".toList) true = some (0, 3) ∧
    removeWS (sliceFrom ("a  b".toList) 0 4) = removeWS ("a b".toList) ∧
    removeWS ("a  b".toList) ≠ [] ∧
    normalise (sliceFrom ("a  b".toList) 0 3) ≠ normalise ("a b".toList) :=
  ⟨by decide, by decide, by decide, by decide⟩

/-- C2 (amended): for every text and marker whose normalised form is
non-empty and occurs in the normalised text, `locate_anchor(text, marker,
true)` succeeds via Strategy 1, returning length `len(marker)` (the original,
un-normalised marker length) and the original-text offset obtained from the
Position Map at a normalised offset where `normalise(marker)` occurs in
`normalise(text)`. -/
theorem locateAnchor_start_found_of_occurs (text marker : List Char)
    (hm : normalise marker ≠ [])
    (hocc : ∃ i, i ≤ (normalise text).length ∧
      ∃ t, (normalise text).drop i = normalise marker ++ t) :
    ∃ cm n o, mapNormToOrig text (normalise text) = some cm ∧
      (∃ t, (normalise text).drop n = normalise marker ++ t) ∧
      List.lookup n cm = some o ∧
      locateAnchor text marker true = some ((o : Int), marker.length) := by
  obtain ⟨m, hcm, -, -, h3, -⟩ := mapAux_spec text (normalise text) 0 0
    ⟨[], by rw [List.drop_zero, removeWS_normalise, List.append_nil]⟩
  have hcm' : mapNormToOrig text (normalise text) = some m := by
    rw [mapNormToOrig, hcm]
  obtain ⟨i, hilen, hit⟩ := hocc
  have hne : findAll (normalise marker) (normalise text) ≠ [] :=
    findAll_ne_nil_of_occurs hilen hit
  cases hpos : findAll (normalise marker) (normalise text) with
  | nil => exact absurd hpos hne
  | cons p ps =>
    obtain ⟨best, hbest⟩ :=
      pickBest_isSome (p :: ps) (normalise text) (normalise marker).length
        (List.cons_ne_nil p ps)
    have hmem : best ∈ findAll (normalise marker) (normalise text) := by
      rw [hpos]
      exact pickBest_mem hbest
    obtain ⟨t, ht⟩ := findAll_sound hmem
    cases hnm : normalise marker with
    | nil => exact absurd hnm hm
    | cons c nm' =>
      rw [hnm] at ht
      have hbl : best < (normalise text).length := by
        by_contra hge
        rw [List.drop_eq_nil_of_le (by omega)] at ht
        exact List.noConfusion ht
      have hgetc : (normalise text).get ⟨best, hbl⟩ = c := by
        have hd : (normalise text).drop best =
            (normalise text).get ⟨best, hbl⟩ :: (normalise text).drop (best + 1) :=
          List.drop_eq_get_cons hbl
        rw [ht] at hd
        exact (List.cons.injEq _ _ _ _ ▸ hd).1.symm
      have hcws : isSpace c = false := by
        refine normalise_head_not_space (l := marker) ?_
        rw [hnm]
        rfl
      obtain ⟨v, hv⟩ := h3 best hbl (by rw [hgetc]; exact hcws)
      rw [Nat.zero_add] at hv
      have hs1 : strategy1 marker (normalise marker) (normalise text) m true =
          some ((v : Int), marker.length) := by
        unfold strategy1
        rw [if_pos rfl, hpos]
        dsimp only
        rw [hbest]
        dsimp only
        rw [hv]
      refine ⟨m, best, v, hcm', ⟨t, by simp [ht, hnm]⟩, hv, ?_⟩
      unfold locateAnchor
      dsimp only
      rw [hcm']
      dsimp only
      rw [hs1]

/-- C2 witness: the amended statement applied to text `"ab"` and marker
`"ab"`, whose normalised form is non-empty and occurs at offset 0. -/
theorem locateAnchor_start_found_of_occurs_apply :
    ∃ cm n o, mapNormToOrig ("ab".toList) (normalise ("ab".toList)) = some cm ∧
      (∃ t, (normalise ("ab".toList)).drop n = normalise ("ab".toList) ++ t) ∧
      List.lookup n cm = some o ∧
      locateAnchor ("ab".toList) ("ab".toList) true =
        some ((o : Int), ("ab".toList).length) :=
  locateAnchor_start_found_of_occurs ("ab".toList) ("ab".toList) (by decide)
    ⟨0, by decide, [], by decide⟩

/-! ## Claim C9: the empty marker -/

/-- C9 counterexample: for the text `" a"` the empty marker does not yield
position `0`: Strategy 1 maps the chosen normalised offset `0` through the
Position Map to original offset `1` (the text starts with a space), so
`locate_anchor(" a", "", true) = (1, 0)`, not `(0, 0)`. -/
theorem locateAnchor_empty_marker_not_zero :
    locateAnchor (" a".toList) ("".toList) true = some (1, 0) ∧
    locateAnchor (" a".toList) ("".toList) true ≠ some (0, 0) :=
  ⟨by decide, by decide⟩

/-- C9 (amended): for every text, `locate_anchor(text, "", true)` does not
crash and returns a pair whose length component is `0`; the offset is either
a Position-Map value or the `-1` sentinel, but need not be `0`. -/
theorem locateAnchor_empty_marker_len_zero (text : List Char) :
    ∃ o : Int, locateAnchor text [] true = some (o, 0) := by
  have hnil : normalise ([] : List Char) = [] := rfl
  obtain ⟨m, hcm, -, -, -, -⟩ := mapAux_spec text (normalise text) 0 0
    ⟨[], by rw [List.drop_zero, removeWS_normalise, List.append_nil]⟩
  have hcm' : mapNormToOrig text (normalise text) = some m := by
    rw [mapNormToOrig, hcm]
  have hne : findAll ([] : List Char) (normalise text) ≠ [] :=
    findAll_ne_nil_of_occurs (Nat.zero_le _) ⟨normalise text, by simp⟩
  cases hpos : findAll ([] : List Char) (normalise text) with
  | nil => exact absurd hpos hne
  | cons p ps =>
    obtain ⟨best, hbest⟩ :=
      pickBest_isSome (p :: ps) (normalise text) 0 (List.cons_ne_nil p ps)
    cases hlk : List.lookup best m with
    | some o =>
      refine ⟨(o : Int), ?_⟩
      have hs1 : strategy1 [] (normalise ([] : List Char)) (normalise text) m true =
          some ((o : Int), 0) := by
        unfold strategy1
        rw [if_pos rfl, hnil, hpos]
        dsimp only
        simp only [List.length_nil]
        rw [hbest]
        dsimp only
        rw [hlk]
      unfold locateAnchor
      dsimp only
      rw [hcm']
      dsimp only
      rw [hs1]
    | none =>
      refine ⟨(-1 : Int), ?_⟩
      have hs1 : strategy1 [] (normalise ([] : List Char)) (normalise text) m true =
          none := by
        unfold strategy1
        rw [if_pos rfl, hnil, hpos]
        dsimp only
        simp only [List.length_nil]
        rw [hbest]
        dsimp only
        rw [hlk]
      unfold locateAnchor
      dsimp only
      rw [hcm']
      dsimp only
      rw [hs1]
      rfl

/-! ## Claim C8: end anchors use the last occurrence -/

theorem rfindAux_sound (pat txt : List Char) :
    ∀ n i, rfindAux pat txt n = some i →
      i ≤ n ∧ (∃ t, txt.drop i = pat ++ t) ∧
      ∀ j, i < j → j ≤ n → ¬ ∃ t, txt.drop j = pat ++ t := by
  intro n
  induction n with
  | zero =>
    intro i h
    rw [rfindAux] at h
    by_cases hp : pat.isPrefixOf txt = true
    · rw [if_pos hp] at h
      injection h with h
      subst h
      refine ⟨Nat.le_refl 0, ?_, fun j h1 h2 => by omega⟩
      obtain ⟨t, ht⟩ := (isPrefixOf_eq_iff pat txt).mp hp
      exact ⟨t, by rw [List.drop_zero]; exact ht⟩
    · rw [if_neg hp] at h
      exact Option.noConfusion h
  | succ n ih =>
    intro i h
    rw [rfindAux] at h
    by_cases hp : pat.isPrefixOf (txt.drop (n + 1)) = true
    · rw [if_pos hp] at h
      injection h with h
      subst h
      exact ⟨Nat.le_refl _, (isPrefixOf_eq_iff pat (txt.drop (n + 1))).mp hp,
        fun j h1 h2 => by omega⟩
    · rw [if_neg hp] at h
      obtain ⟨h1, h2, h3⟩ := ih i h
      refine ⟨by omega, h2, fun j hj1 hj2 => ?_⟩
      rcases Nat.eq_or_lt_of_le hj2 with rfl | hlt
      · intro ht
        exact hp ((isPrefixOf_eq_iff pat (txt.drop (n + 1))).mpr ht)
      · exact h3 j hj1 (by omega)

/-- C8: for an end anchor (`is_start = false`) Strategy 1 takes the last
normalised offset of the marker (`rfind`); when it exists and is in the
Position Map, `locate_anchor` returns that mapped offset with length
`len(marker)`.  `rfind` finds an occurrence with no occurrence after it, and
in the two-occurrence example the result is the later occurrence. -/
theorem locateAnchor_end_last :
    (∀ (text marker : List Char) (i o : Nat) (cm : List (Nat × Nat)),
      mapNormToOrig text (normalise text) = some cm →
      rfind (normalise marker) (normalise text) = some i →
      List.lookup i cm = some o →
      locateAnchor text marker false = some ((o : Int), marker.length)) ∧
    (∀ (pat txt : List Char) (i : Nat), rfind pat txt = some i →
      (∃ t, txt.drop i = pat ++ t) ∧
      ∀ j, i < j → j ≤ txt.length → ¬ ∃ t, txt.drop j = pat ++ t) ∧
    (locateAnchor ("x THE END y\nTHE END".toList) ("THE END".toList) false =
        some (12, 7) ∧
      (∃ t, ("x THE END y\nTHE END".toList).drop 2 = "THE END".toList ++ t) ∧
      (∃ t, ("x THE END y\nTHE END".toList).drop 12 = "THE END".toList ++ t)) := by
  refine ⟨?_, ?_, by decide, ⟨" y\nTHE END".toList, by decide⟩,
    ⟨[], by decide⟩⟩
  · intro text marker i o cm hcm hrf hlk
    have hs1 : strategy1 marker (normalise marker) (normalise text) cm false =
        some ((o : Int), marker.length) := by
      unfold strategy1
      rw [if_neg (by decide : ¬(false = true)), hrf]
      dsimp only
      rw [hlk]
    unfold locateAnchor
    dsimp only
    rw [hcm]
    dsimp only
    rw [hs1]
  · intro pat txt i h
    obtain ⟨-, h2, h3⟩ := rfindAux_sound pat txt txt.length i h
    exact ⟨h2, h3⟩

/-- C8 witness: the general part applied to text `"a a"` and marker `"a"`,
whose last occurrence is at normalised offset 2, mapped to original offset 2. -/
theorem locateAnchor_end_last_apply :
    locateAnchor ("a a".toList) ("a".toList) false =
      some (((2 : Nat) : Int), ("a".toList).length) :=
  locateAnchor_end_last.1 ("a a".toList) ("a".toList) 2 2 [(0, 0), (2, 2)]
    (by decide) (by decide) (by decide)

/-! ## Claim C3: the single-line fallback -/

theorem mem_splitOnNL_subset {marker : List Char} :
    ∀ l ∈ splitOnNL marker, ∀ c ∈ l, c ∈ marker := by
  induction marker with
  | nil =>
    intro l hl c hc
    obtain rfl : l = [] := by
      rcases List.mem_cons.mp hl with rfl | h
      · rfl
      · exact absurd h (List.not_mem_nil l)
    exact absurd hc (List.not_mem_nil c)
  | cons d rest ih =>
    intro l hl c hc
    rw [splitOnNL] at hl
    by_cases hd : d = '\n'
    · rw [if_pos hd] at hl
      rcases List.mem_cons.mp hl with rfl | h
      · exact absurd hc (List.not_mem_nil c)
      · exact List.mem_cons_of_mem d (ih l h c hc)
    · rw [if_neg hd] at hl
      cases hsp : splitOnNL rest with
      | nil =>
        rw [hsp] at hl
        obtain rfl : l = [d] := by
          rcases List.mem_cons.mp hl with rfl | h
          · rfl
          · exact absurd h (List.not_mem_nil l)
        obtain rfl : c = d := by
          rcases List.mem_cons.mp hc with rfl | h
          · rfl
          · exact absurd h (List.not_mem_nil c)
        exact List.mem_cons_self c rest
      | cons l1 ls =>
        rw [hsp] at hl
        rcases List.mem_cons.mp hl with rfl | h
        · rcases List.mem_cons.mp hc with rfl | h'
          · exact List.mem_cons_self c rest
          · exact List.mem_cons_of_mem d (ih l1 (hsp ▸ List.mem_cons_self l1 ls) c h')
        · exact List.mem_cons_of_mem d
            (ih l (hsp ▸ List.mem_cons_of_mem l1 h) c hc)

theorem dropWhile_space_all {l : List Char} (h : ∀ c ∈ l, isSpace c = true) :
    l.dropWhile isSpace = [] := by
  induction l with
  | nil => rfl
  | cons c t ih =>
    rw [List.dropWhile_cons_of_pos (h c (List.mem_cons_self c t))]
    exact ih fun d hd => h d (List.mem_cons_of_mem c hd)

theorem strip_all_space {l : List Char} (h : ∀ c ∈ l, isSpace c = true) :
    strip l = [] := by
  rw [strip, dropWhile_space_all h]
  rfl

/-- C3: Strategy 2 of `locate_anchor`, engaged exactly when Strategy 1 yields
nothing returnable: the marker is split on newlines with blank lines
discarded; if nothing remains the result is `(-1, 0)` (in particular for a
whitespace-only marker); otherwise the first (for a start anchor) or last
line is normalised and searched, `(-1, 0)` is returned when it is absent or
the chosen offset is unmapped, and otherwise the mapped offset is returned
with the length of the normalised single-line marker; concretely
`locate_anchor("hello world", "goodbye", true) = (-1, 0)`. -/
theorem locateAnchor_strategy2_spec :
    (∀ (text marker : List Char) (isStart : Bool) (cm : List (Nat × Nat)),
      mapNormToOrig text (normalise text) = some cm →
      strategy1 marker (normalise marker) (normalise text) cm isStart = none →
      locateAnchor text marker isStart = strategy2 marker (normalise text) cm isStart) ∧
    (∀ marker : List Char, (∀ c ∈ marker, isSpace c = true) →
      (splitOnNL marker).filter (fun l => !(strip l).isEmpty) = []) ∧
    (∀ (marker normText : List Char) (cm : List (Nat × Nat)) (isStart : Bool),
      (splitOnNL marker).filter (fun l => !(strip l).isEmpty) = [] →
      strategy2 marker normText cm isStart = some (-1, 0)) ∧
    (∀ (marker normText : List Char) (cm : List (Nat × Nat)) (isStart : Bool)
      (l0 line : List Char) (rest : List (List Char)),
      (splitOnNL marker).filter (fun l => !(strip l).isEmpty) = l0 :: rest →
      line = (if isStart then l0 else (l0 :: rest).getLast (List.cons_ne_nil l0 rest)) →
      (findAll (normalise line) normText = [] →
        strategy2 marker normText cm isStart = some (-1, 0)) ∧
      (∀ best,
        (if isStart then
          pickBestOccurrence (findAll (normalise line) normText) normText
            (normalise line).length
        else (findAll (normalise line) normText).getLast?) = some best →
        (List.lookup best cm = none →
          strategy2 marker normText cm isStart = some (-1, 0)) ∧
        (∀ o, List.lookup best cm = some o →
          strategy2 marker normText cm isStart = some ((o : Int), (normalise line).length)))) ∧
    locateAnchor ("hello world".toList) ("goodbye".toList) true = some (-1, 0) := by
  refine ⟨?_, ?_, ?_, ?_, by decide⟩
  · intro text marker isStart cm hcm hs1
    unfold locateAnchor
    dsimp only
    rw [hcm]
    dsimp only
    rw [hs1]
  · intro marker h
    rw [List.filter_eq_nil_iff]
    intro l hl
    have : strip l = [] := strip_all_space fun c hc => h c (mem_splitOnNL_subset l hl c hc)
    rw [this]
    simp
  · intro marker normText cm isStart hlines
    unfold strategy2
    rw [hlines]
  · intro marker normText cm isStart l0 line rest hlines hline
    subst hline
    constructor
    · intro hfa
      unfold strategy2
      rw [hlines]
      dsimp only
      rw [hfa]
    · intro best hbest
      cases hfa : findAll
          (normalise (if isStart then l0 else (l0 :: rest).getLast (List.cons_ne_nil l0 rest)))
          normText with
      | nil =>
        rw [hfa] at hbest
        rcases isStart with - | -
        · simp at hbest
        · simp [pickBestOccurrence] at hbest
      | cons p ps =>
        rw [hfa] at hbest
        constructor
        · intro hlk
          unfold strategy2
          rw [hlines]
          dsimp only
          rw [hfa]
          dsimp only
          rw [hbest]
          dsimp only
          rw [hlk]
        · intro o hlk
          unfold strategy2
          rw [hlines]
          dsimp only
          rw [hfa]
          dsimp only
          rw [hbest]
          dsimp only
          rw [hlk]

/-- C3 witness: for the text `"a\n\nb"` and the whitespace-only marker `" "`,
Strategy 1 yields nothing (the empty normalised marker's best occurrence lies
on a newline, outside the Position Map), and `locate_anchor` returns the
Strategy-2 result. -/
theorem locateAnchor_strategy2_spec_apply :
    locateAnchor ("a\n\nb".toList) (" ".toList) true =
      strategy2 (" ".toList) (normalise ("a\n\nb".toList)) [(0, 0), (3, 3)] true :=
  locateAnchor_strategy2_spec.1 ("a\n\nb".toList) (" ".toList) true [(0, 0), (3, 3)]
    (by decide) (by decide)

/-! ## Newline-run invariants of normalise -/

theorem nlRunOk_emitNL (k : Nat) : nlRunOk (emitNL k) 0 = true := by
  by_cases h : 3 ≤ k
  · rw [emitNL, if_pos h]
    decide
  · rw [emitNL, if_neg h]
    have hk : k = 0 ∨ k = 1 ∨ k = 2 := by omega
    rcases hk with rfl | rfl | rfl <;> decide

theorem nlRunOk_step_nl {t : List Char} {k : Nat} (hk : k + 1 < 3) :
    nlRunOk ('\n' :: t) k = nlRunOk t (k + 1) := by
  rw [nlRunOk, if_pos rfl, decide_eq_true hk, Bool.true_and]

theorem nlRunOk_step_other {c : Char} {t : List Char} {k : Nat} (hc : ¬c = '\n') :
    nlRunOk (c :: t) k = nlRunOk t 0 := by
  rw [nlRunOk, if_neg hc]

theorem nlRunOk_sep (k : Nat) {c : Char} {t : List Char} (hc : ¬c = '\n')
    (ht : nlRunOk t 0 = true) : nlRunOk (emitNL k ++ c :: t) 0 = true := by
  have hstep : ∀ k', nlRunOk (c :: t) k' = true := by
    intro k'
    rw [nlRunOk_step_other hc]
    exact ht
  by_cases h : 3 ≤ k
  · rw [emitNL, if_pos h, List.cons_append, List.cons_append, List.nil_append,
      nlRunOk_step_nl (by omega), nlRunOk_step_nl (by omega)]
    exact hstep 2
  · rw [emitNL, if_neg h]
    have hk : k = 0 ∨ k = 1 ∨ k = 2 := by omega
    rcases hk with rfl | rfl | rfl
    · rw [show List.replicate 0 '\n' ++ c :: t = c :: t from rfl]
      exact hstep 0
    · rw [show List.replicate 1 '\n' ++ c :: t = '\n' :: c :: t from rfl,
        nlRunOk_step_nl (by omega)]
      exact hstep 1
    · rw [show List.replicate 2 '\n' ++ c :: t = '\n' :: '\n' :: c :: t from rfl,
        nlRunOk_step_nl (by omega), nlRunOk_step_nl (by omega)]
      exact hstep 2

theorem nlRunOk_collapseNLAux (l : List Char) :
    ∀ k, nlRunOk (collapseNLAux l k) 0 = true := by
  induction l with
  | nil => intro k; rw [collapseNLAux]; exact nlRunOk_emitNL k
  | cons c t ih =>
    intro k
    by_cases hc : c = '\n'
    · rw [collapseNLAux, if_pos hc]
      exact ih (k + 1)
    · rw [collapseNLAux, if_neg hc]
      exact nlRunOk_sep k hc (ih 0)

theorem isNLWS_ne_nl {c : Char} (h : isNLWS c = true) : ¬c = '\n' := by
  intro he
  rw [isNLWS, he] at h
  simp at h

theorem nlRunOk_collapseWSAux (l : List Char) :
    (∀ k, nlRunOk l k = true → nlRunOk (collapseWSAux l false) k = true) ∧
    (nlRunOk l 0 = true → ∀ k, nlRunOk (collapseWSAux l true) k = true) := by
  induction l with
  | nil =>
    constructor
    · intro k _
      rfl
    · intro _ k
      rfl
  | cons c t ih =>
    constructor
    · intro k h
      by_cases hws : isNLWS c = true
      · rw [collapseWSAux, if_pos hws]
        rw [nlRunOk_step_other (isNLWS_ne_nl hws)] at h
        exact ih.2 h k
      · rw [collapseWSAux, if_neg hws]
        show nlRunOk (c :: collapseWSAux t false) k = true
        by_cases hc : c = '\n'
        · subst hc
          rw [nlRunOk, if_pos rfl] at h ⊢
          obtain ⟨h1, h2⟩ := Bool.and_eq_true _ _ ▸ h
          rw [h1, Bool.true_and] at h ⊢
          exact ih.1 (k + 1) h2
        · rw [nlRunOk_step_other hc] at h ⊢
          exact ih.1 0 h
    · intro h k
      by_cases hws : isNLWS c = true
      · rw [collapseWSAux, if_pos hws]
        rw [nlRunOk_step_other (isNLWS_ne_nl hws)] at h
        exact ih.2 h k
      · rw [collapseWSAux, if_neg hws]
        show nlRunOk (' ' :: c :: collapseWSAux t false) k = true
        rw [nlRunOk_step_other (by decide : ¬(' ' = '\n'))]
        by_cases hc : c = '\n'
        · subst hc
          rw [nlRunOk, if_pos rfl] at h ⊢
          obtain ⟨h1, h2⟩ := Bool.and_eq_true _ _ ▸ h
          rw [decide_eq_true (by omega : 0 + 1 < 3), Bool.true_and]
          exact ih.1 1 h2
        · rw [nlRunOk_step_other hc] at h ⊢
          exact ih.1 0 h

theorem nlRunOk_mono (l : List Char) :
    ∀ k k', k' ≤ k → nlRunOk l k = true → nlRunOk l k' = true := by
  induction l with
  | nil => intro k k' _ _; rfl
  | cons c t ih =>
    intro k k' hkk h
    by_cases hc : c = '\n'
    · rw [nlRunOk, if_pos hc] at h ⊢
      obtain ⟨h1, h2⟩ := Bool.and_eq_true _ _ ▸ h
      have : k + 1 < 3 := of_decide_eq_true h1
      refine (Bool.and_eq_true _ _).mpr ⟨decide_eq_true (by omega), ?_⟩
      exact ih (k + 1) (k' + 1) (by omega) h2
    · rw [nlRunOk, if_neg hc] at h ⊢
      exact h

theorem nlRunOk_append_left {l s : List Char} :
    ∀ k, nlRunOk (l ++ s) k = true → nlRunOk l k = true := by
  induction l with
  | nil => intro k _; rfl
  | cons c t ih =>
    intro k h
    rw [List.cons_append] at h
    by_cases hc : c = '\n'
    · rw [nlRunOk, if_pos hc] at h ⊢
      obtain ⟨h1, h2⟩ := Bool.and_eq_true _ _ ▸ h
      exact (Bool.and_eq_true _ _).mpr ⟨h1, ih (k + 1) h2⟩
    · rw [nlRunOk, if_neg hc] at h ⊢
      exact ih 0 h

theorem nlRunOk_suffix {t r : List Char} :
    ∀ k, nlRunOk (t ++ r) k = true → ∃ k', nlRunOk r k' = true := by
  induction t with
  | nil => intro k h; exact ⟨k, h⟩
  | cons c u ih =>
    intro k h
    rw [List.cons_append] at h
    by_cases hc : c = '\n'
    · rw [nlRunOk, if_pos hc] at h
      obtain ⟨-, h2⟩ := Bool.and_eq_true _ _ ▸ h
      exact ih (k + 1) h2
    · rw [nlRunOk, if_neg hc] at h
      exact ih 0 h

theorem stripRight_append_rest : ∀ l : List Char, ∃ s, l = stripRight l ++ s := by
  intro l
  induction l with
  | nil => exact ⟨[], rfl⟩
  | cons c t ih =>
    rw [stripRight]
    by_cases he : (stripRight t).isEmpty = true
    · rw [if_pos he]
      by_cases hc : isSpace c = true
      · rw [if_pos hc]
        exact ⟨c :: t, rfl⟩
      · rw [if_neg hc]
        exact ⟨t, rfl⟩
    · rw [if_neg he]
      obtain ⟨s, hs⟩ := ih
      exact ⟨s, by rw [List.cons_append, ← hs]⟩

theorem nlRunOk_strip {l : List Char} (h : nlRunOk l 0 = true) :
    nlRunOk (strip l) 0 = true := by
  have hsplit : l.takeWhile isSpace ++ l.dropWhile isSpace = l :=
    List.takeWhile_append_dropWhile isSpace l
  have hdw : nlRunOk (l.dropWhile isSpace) 0 = true := by
    obtain ⟨k', hk'⟩ := nlRunOk_suffix (t := l.takeWhile isSpace)
      (r := l.dropWhile isSpace) 0 (by rw [hsplit]; exact h)
    exact nlRunOk_mono _ k' 0 (Nat.zero_le k') hk'
  obtain ⟨s, hs⟩ := stripRight_append_rest (l.dropWhile isSpace)
  rw [strip]
  exact nlRunOk_append_left 0 (by rw [← hs]; exact hdw)

theorem noTripleNL_normalise (l : List Char) : noTripleNL (normalise l) = true := by
  rw [noTripleNL, normalise]
  refine nlRunOk_strip ?_
  rw [collapseWS]
  refine (nlRunOk_collapseWSAux _).1 0 ?_
  rw [collapseNL]
  exact nlRunOk_collapseNLAux _ 0

/-! ## Whitespace-run invariants of normalise -/

theorem wsRunOk_step_ws {c : Char} {t : List Char} {p : Bool} (hc : isNLWS c = true) :
    wsRunOk (c :: t) p = (!p && wsRunOk t true) := by
  rw [wsRunOk, if_pos hc]

theorem wsRunOk_step_other {c : Char} {t : List Char} {p : Bool} (hc : ¬isNLWS c = true) :
    wsRunOk (c :: t) p = wsRunOk t false := by
  rw [wsRunOk, if_neg hc]

theorem wsRunOk_collapseWSAux (l : List Char) :
    wsRunOk (collapseWSAux l false) false = true ∧
    wsRunOk (collapseWSAux l true) false = true := by
  induction l with
  | nil =>
    constructor
    · rfl
    · rfl
  | cons c t ih =>
    constructor
    · by_cases hws : isNLWS c = true
      · rw [collapseWSAux, if_pos hws]
        exact ih.2
      · rw [collapseWSAux, if_neg hws]
        show wsRunOk (c :: collapseWSAux t false) false = true
        rw [wsRunOk_step_other hws]
        exact ih.1
    · by_cases hws : isNLWS c = true
      · rw [collapseWSAux, if_pos hws]
        exact ih.2
      · rw [collapseWSAux, if_neg hws]
        show wsRunOk (' ' :: c :: collapseWSAux t false) false = true
        rw [wsRunOk_step_ws (by decide : isNLWS ' ' = true), Bool.not_false,
          Bool.true_and, wsRunOk_step_other hws]
        exact ih.1

theorem wsRunOk_mono {l : List Char} {p : Bool} (h : wsRunOk l p = true) :
    wsRunOk l false = true := by
  cases l with
  | nil => rfl
  | cons c t =>
    by_cases hws : isNLWS c = true
    · rw [wsRunOk_step_ws hws] at h ⊢
      obtain ⟨-, h2⟩ := Bool.and_eq_true _ _ ▸ h
      rw [Bool.not_false, Bool.true_and]
      exact h2
    · rw [wsRunOk_step_other hws] at h ⊢
      exact h

theorem wsRunOk_append_left {l s : List Char} :
    ∀ p, wsRunOk (l ++ s) p = true → wsRunOk l p = true := by
  induction l with
  | nil => intro p _; rfl
  | cons c t ih =>
    intro p h
    rw [List.cons_append] at h
    by_cases hws : isNLWS c = true
    · rw [wsRunOk_step_ws hws] at h ⊢
      obtain ⟨h1, h2⟩ := Bool.and_eq_true _ _ ▸ h
      exact (Bool.and_eq_true _ _).mpr ⟨h1, ih true h2⟩
    · rw [wsRunOk_step_other hws] at h ⊢
      exact ih false h

theorem wsRunOk_suffix {t r : List Char} :
    ∀ p, wsRunOk (t ++ r) p = true → ∃ p', wsRunOk r p' = true := by
  induction t with
  | nil => intro p h; exact ⟨p, h⟩
  | cons c u ih =>
    intro p h
    rw [List.cons_append] at h
    by_cases hws : isNLWS c = true
    · rw [wsRunOk_step_ws hws] at h
      obtain ⟨-, h2⟩ := Bool.and_eq_true _ _ ▸ h
      exact ih true h2
    · rw [wsRunOk_step_other hws] at h
      exact ih false h

theorem wsRunOk_strip {l : List Char} (h : wsRunOk l false = true) :
    wsRunOk (strip l) false = true := by
  have hsplit : l.takeWhile isSpace ++ l.dropWhile isSpace = l :=
    List.takeWhile_append_dropWhile isSpace l
  have hdw : wsRunOk (l.dropWhile isSpace) false = true := by
    obtain ⟨p', hp'⟩ := wsRunOk_suffix (t := l.takeWhile isSpace)
      (r := l.dropWhile isSpace) false (by rw [hsplit]; exact h)
    exact wsRunOk_mono hp'
  obtain ⟨s, hs⟩ := stripRight_append_rest (l.dropWhile isSpace)
  rw [strip]
  exact wsRunOk_append_left false (by rw [← hs]; exact hdw)

theorem noDoubleNLWS_normalise (l : List Char) : noDoubleNLWS (normalise l) = true := by
  rw [noDoubleNLWS, normalise]
  refine wsRunOk_strip ?_
  rw [collapseWS]
  exact (wsRunOk_collapseWSAux _).1

/-! ## Character-sets and edge characters of normalise -/

theorem mem_emitNL {c : Char} {k : Nat} (h : c ∈ emitNL k) : c = '\n' := by
  rw [emitNL] at h
  by_cases h3 : 3 ≤ k
  · rw [if_pos h3] at h
    rcases List.mem_cons.mp h with rfl | h'
    · rfl
    · rcases List.mem_cons.mp h' with rfl | h''
      · rfl
      · exact absurd h'' (List.not_mem_nil c)
  · rw [if_neg h3] at h
    exact List.eq_of_mem_replicate h

theorem mem_collapseNLAux {c : Char} :
    ∀ (l : List Char) (k : Nat), c ∈ collapseNLAux l k → c ∈ l ∨ c = '\n' := by
  intro l
  induction l with
  | nil =>
    intro k h
    rw [collapseNLAux] at h
    exact Or.inr (mem_emitNL h)
  | cons d t ih =>
    intro k h
    by_cases hd : d = '\n'
    · rw [collapseNLAux, if_pos hd] at h
      rcases ih (k + 1) h with h' | h'
      · exact Or.inl (List.mem_cons_of_mem d h')
      · exact Or.inr h'
    · rw [collapseNLAux, if_neg hd] at h
      rcases List.mem_append.mp h with h' | h'
      · exact Or.inr (mem_emitNL h')
      · rcases List.mem_cons.mp h' with rfl | h''
        · exact Or.inl (List.mem_cons_self c t)
        · rcases ih 0 h'' with h3 | h3
          · exact Or.inl (List.mem_cons_of_mem d h3)
          · exact Or.inr h3

theorem mem_collapseWSAux {c : Char} :
    ∀ (l : List Char) (p : Bool), c ∈ collapseWSAux l p → c ∈ l ∨ c = ' ' := by
  intro l
  induction l with
  | nil =>
    intro p h
    cases p
    · exact absurd h (List.not_mem_nil c)
    · rw [collapseWSAux] at h
      rcases List.mem_cons.mp h with rfl | h'
      · exact Or.inr rfl
      · exact absurd h' (List.not_mem_nil c)
  | cons d t ih =>
    intro p h
    by_cases hd : isNLWS d = true
    · rw [collapseWSAux, if_pos hd] at h
      rcases ih true h with h' | h'
      · exact Or.inl (List.mem_cons_of_mem d h')
      · exact Or.inr h'
    · rw [collapseWSAux, if_neg hd] at h
      rcases List.mem_append.mp h with h' | h'
      · cases p
        · exact absurd h' (List.not_mem_nil c)
        · rcases List.mem_cons.mp h' with rfl | h''
          · exact Or.inr rfl
          · exact absurd h'' (List.not_mem_nil c)
      · rcases List.mem_cons.mp h' with rfl | h''
        · exact Or.inl (List.mem_cons_self c t)
        · rcases ih false h'' with h3 | h3
          · exact Or.inl (List.mem_cons_of_mem d h3)
          · exact Or.inr h3

theorem mem_strip {c : Char} {l : List Char} (h : c ∈ strip l) : c ∈ l := by
  rw [strip] at h
  obtain ⟨s, hs⟩ := stripRight_append_rest (l.dropWhile isSpace)
  have h1 : c ∈ l.dropWhile isSpace := by
    rw [hs]
    exact List.mem_append_left s h
  exact List.Sublist.mem h1 (List.dropWhile_sublist isSpace)

theorem normalise_no_cr (l : List Char) : ∀ c ∈ normalise l, ¬c = '\r' := by
  intro c hc hcr
  subst hcr
  rw [normalise] at hc
  have h1 := mem_strip hc
  rcases mem_collapseWSAux _ _ h1 with h2 | h2
  · rw [collapseNL] at h2
    rcases mem_collapseNLAux _ _ h2 with h3 | h3
    · rw [replaceCR] at h3
      obtain ⟨a, -, ha⟩ := List.mem_map.mp h3
      by_cases har : a = '\r'
      · rw [if_pos har] at ha
        exact absurd ha (by decide)
      · rw [if_neg har] at ha
        exact har ha
    · exact absurd h3 (by decide)
  · exact absurd h2 (by decide)

theorem nlwsSpace_collapseWSAux {c : Char} :
    ∀ (l : List Char) (p : Bool), c ∈ collapseWSAux l p → isNLWS c = true → c = ' ' := by
  intro l
  induction l with
  | nil =>
    intro p h _
    cases p
    · exact absurd h (List.not_mem_nil c)
    · rcases List.mem_cons.mp h with rfl | h'
      · rfl
      · exact absurd h' (List.not_mem_nil c)
  | cons d t ih =>
    intro p h hws
    by_cases hd : isNLWS d = true
    · rw [collapseWSAux, if_pos hd] at h
      exact ih true h hws
    · rw [collapseWSAux, if_neg hd] at h
      rcases List.mem_append.mp h with h' | h'
      · cases p
        · exact absurd h' (List.not_mem_nil c)
        · rcases List.mem_cons.mp h' with rfl | h''
          · rfl
          · exact absurd h'' (List.not_mem_nil c)
      · rcases List.mem_cons.mp h' with rfl | h''
        · exact absurd hws hd
        · exact ih false h'' hws

theorem normalise_nlws_space {l : List Char} {c : Char} (hc : c ∈ normalise l)
    (hws : isNLWS c = true) : c = ' ' := by
  rw [normalise] at hc
  exact nlwsSpace_collapseWSAux _ _ (mem_strip hc) hws

theorem stripRight_getLast {c : Char} :
    ∀ l : List Char, (stripRight l).getLast? = some c → isSpace c = false := by
  intro l
  induction l with
  | nil => intro h; exact Option.noConfusion h
  | cons d t ih =>
    intro h
    rw [stripRight] at h
    by_cases he : (stripRight t).isEmpty = true
    · rw [if_pos he] at h
      by_cases hd : isSpace d = true
      · rw [if_pos hd] at h
        exact Option.noConfusion h
      · rw [if_neg hd] at h
        obtain rfl : d = c := by
          simpa using h
        simpa using hd
    · rw [if_neg he] at h
      cases hst : stripRight t with
      | nil =>
        rw [hst] at he
        exact absurd rfl he
      | cons x xs =>
        rw [hst, List.getLast?_cons_cons] at h
        exact ih (by rw [hst]; exact h)

theorem normalise_getLast_not_space {l : List Char} {c : Char}
    (h : (normalise l).getLast? = some c) : isSpace c = false := by
  rw [normalise, strip] at h
  exact stripRight_getLast _ h

/-! ## Claim C7: the invariants of the normalised form -/

/-- C7: for every string `s`, `normalise(s)` contains no carriage return, no
run of three or more consecutive newlines, and no run of non-newline
whitespace longer than one character, and has no leading or trailing
whitespace. -/
theorem normalise_invariants (s : List Char) :
    ((normalise s).all fun c => !(c == '\r')) = true ∧
    noTripleNL (normalise s) = true ∧
    noDoubleNLWS (normalise s) = true ∧
    ((normalise s).head?.all fun c => !isSpace c) = true ∧
    ((normalise s).getLast?.all fun c => !isSpace c) = true := by
  refine ⟨?_, noTripleNL_normalise s, noDoubleNLWS_normalise s, ?_, ?_⟩
  · rw [List.all_eq_true]
    intro c hc
    have := normalise_no_cr s c hc
    simpa using this
  · cases hh : (normalise s).head? with
    | none => rfl
    | some c =>
      have := normalise_head_not_space hh
      simpa [Option.all] using this
  · cases hh : (normalise s).getLast? with
    | none => rfl
    | some c =>
      have := normalise_getLast_not_space hh
      simpa [Option.all] using this

/-! ## normalise is the identity on normalised strings -/

theorem replaceCR_id {l : List Char} (h : ∀ c ∈ l, ¬c = '\r') : replaceCR l = l := by
  induction l with
  | nil => rfl
  | cons c t ih =>
    rw [replaceCR_cons, if_neg (h c (List.mem_cons_self c t)),
      ih fun d hd => h d (List.mem_cons_of_mem c hd)]

theorem collapseNLAux_id :
    ∀ (l : List Char) (k : Nat), k ≤ 2 → nlRunOk l k = true →
      collapseNLAux l k = List.replicate k '\n' ++ l := by
  intro l
  induction l with
  | nil =>
    intro k hk _
    rw [collapseNLAux, emitNL, if_neg (by omega), List.append_nil]
  | cons c t ih =>
    intro k hk h
    by_cases hc : c = '\n'
    · subst hc
      rw [nlRunOk, if_pos rfl] at h
      obtain ⟨h1, h2⟩ := Bool.and_eq_true _ _ ▸ h
      have hk1 : k + 1 < 3 := of_decide_eq_true h1
      rw [collapseNLAux, if_pos rfl, ih (k + 1) (by omega) h2,
        List.replicate_succ' k '\n', List.append_assoc, List.singleton_append]
    · rw [nlRunOk_step_other hc] at h
      rw [collapseNLAux, if_neg hc, emitNL, if_neg (by omega),
        ih 0 (by omega) h, List.replicate_zero, List.nil_append]

theorem collapseNL_id {l : List Char} (h : noTripleNL l = true) : collapseNL l = l := by
  rw [collapseNL, collapseNLAux_id l 0 (by omega) h, List.replicate_zero, List.nil_append]

theorem collapseWSAux_true_eq :
    ∀ l : List Char, collapseWSAux l true = ' ' :: collapseWSAux (l.dropWhile isNLWS) false := by
  intro l
  induction l with
  | nil => rfl
  | cons c t ih =>
    by_cases hc : isNLWS c = true
    · rw [collapseWSAux, if_pos hc, List.dropWhile_cons_of_pos hc]
      exact ih
    · rw [collapseWSAux, if_neg hc, List.dropWhile_cons_of_neg hc, collapseWSAux,
        if_neg hc]
      rfl

theorem dropWhile_id_of_wsRunOk_true {l : List Char} (h : wsRunOk l true = true) :
    l.dropWhile isNLWS = l := by
  cases l with
  | nil => rfl
  | cons c t =>
    by_cases hc : isNLWS c = true
    · rw [wsRunOk_step_ws hc] at h
      simp at h
    · exact List.dropWhile_cons_of_neg hc

theorem collapseWSAux_id :
    ∀ l : List Char, wsRunOk l false = true → (∀ c ∈ l, isNLWS c = true → c = ' ') →
      collapseWSAux l false = l := by
  intro l
  induction l with
  | nil => intro _ _; rfl
  | cons c t ih =>
    intro h hsp
    by_cases hc : isNLWS c = true
    · have hcsp : c = ' ' := hsp c (List.mem_cons_self c t) hc
      rw [wsRunOk_step_ws hc, Bool.not_false, Bool.true_and] at h
      rw [collapseWSAux, if_pos hc, collapseWSAux_true_eq, dropWhile_id_of_wsRunOk_true h,
        ih (wsRunOk_mono h) fun d hd => hsp d (List.mem_cons_of_mem c hd), hcsp]
    · rw [wsRunOk_step_other hc] at h
      rw [collapseWSAux, if_neg hc, ih h fun d hd => hsp d (List.mem_cons_of_mem c hd)]
      rfl

theorem stripRight_id :
    ∀ l : List Char, (∀ c, l.getLast? = some c → isSpace c = false) → stripRight l = l := by
  intro l
  induction l with
  | nil => intro _; rfl
  | cons c t ih =>
    intro h
    cases t with
    | nil =>
      rw [stripRight]
      have hc : isSpace c = false := h c rfl
      rw [show (stripRight [] : List Char).isEmpty = true from rfl, if_pos rfl,
        if_neg (by rw [hc]; exact Bool.false_ne_true)]
    | cons d u =>
      have ht : stripRight (d :: u) = d :: u := by
        refine ih fun e he => h e ?_
        rw [List.getLast?_cons_cons]
        exact he
      rw [stripRight, ht]
      rw [if_neg (by simp)]

theorem strip_id {l : List Char} (hh : ∀ c, l.head? = some c → isSpace c = false)
    (hl : ∀ c, l.getLast? = some c → isSpace c = false) : strip l = l := by
  have hdw : l.dropWhile isSpace = l := by
    cases l with
    | nil => rfl
    | cons c t =>
      exact List.dropWhile_cons_of_neg (by rw [hh c rfl]; exact Bool.false_ne_true)
  rw [strip, hdw]
  exact stripRight_id l hl

/-! ## Claim C6: normalise is idempotent -/

/-- C6: `normalise` is deterministic and total by construction (it is a Lean
function on arbitrary strings, including the empty one), and it is
idempotent: `normalise (normalise s) = normalise s` for every string `s`. -/
theorem normalise_idempotent (s : List Char) :
    normalise (normalise s) = normalise s := by
  have h1 : replaceCR (normalise s) = normalise s :=
    replaceCR_id (normalise_no_cr s)
  have h2 : collapseNL (normalise s) = normalise s :=
    collapseNL_id (noTripleNL_normalise s)
  have h3 : collapseWS (normalise s) = normalise s := by
    rw [collapseWS]
    exact collapseWSAux_id (normalise s) (noDoubleNLWS_normalise s)
      fun c hc hws => normalise_nlws_space hc hws
  have h4 : strip (normalise s) = normalise s :=
    strip_id (fun c hc => normalise_head_not_space hc)
      (fun c hc => normalise_getLast_not_space hc)
  conv_lhs => rw [normalise]
  rw [h1, h2, h3, h4]

/-- C6 witness: idempotence at the concrete string `" a\r\n\n\n\nb  c "`. -/
theorem normalise_idempotent_apply :
    normalise (normalise (" a\r\n\n\n\nb  c ".toList)) =
      normalise (" a\r\n\n\n\nb  c ".toList) :=
  normalise_idempotent (" a\r\n\n\n\nb  c ".toList)

/-- C7 witness: the invariants at the concrete string `" a\r\n\n\n\nb  c "`. -/
theorem normalise_invariants_apply :
    ((normalise (" a\r\n\n\n\nb  c ".toList)).all fun c => !(c == '\r')) = true ∧
    noTripleNL (normalise (" a\r\n\n\n\nb  c ".toList)) = true ∧
    noDoubleNLWS (normalise (" a\r\n\n\n\nb  c ".toList)) = true ∧
    ((normalise (" a\r\n\n\n\nb  c ".toList)).head?.all fun c => !isSpace c) = true ∧
    ((normalise (" a\r\n\n\n\nb  c ".toList)).getLast?.all fun c => !isSpace c) = true :=
  normalise_invariants (" a\r\n\n\n\nb  c ".toList)

/-- C9 witness for the amended statement: for the text `"hello"` the empty
marker yields a length-0 result. -/
theorem locateAnchor_empty_marker_len_zero_apply :
    ∃ o : Int, locateAnchor ("hello".toList) [] true = some (o, 0) :=
  locateAnchor_empty_marker_len_zero ("hello".toList)

end GutenbergSlice
